import Mathlib

/-!
Verification of the juliafatou renderer.

The Rust sources (src/lib.rs, src/main.rs) are shallowly embedded below:
64-bit floats become real numbers, `Complex<f64>` becomes `ℂ`, the mutable
byte buffer becomes a function `ℕ → ℕ`, fallible results become `Option`,
and the per-band thread dispatch of `main` becomes a fold over the list of
row bands.  The theorems then settle the specified properties of the
coordinate mapper, the escape-time evaluator, the dual-set blender, the
gradient sampler and the band scheduler.
-/

open Classical

namespace Juliafatou

/-- Embedding of `calculate_offset` (src/lib.rs lines 30-37): maps a pixel
location `(row, column)` to a point of the complex plane. -/
def calculate_offset (pixel : ℕ × ℕ) (scale : ℝ × ℝ) (offset : ℝ × ℝ × ℝ) : ℂ :=
  let cx : ℝ := (pixel.2 : ℝ) * scale.2 - (offset.2.2 + offset.1)
  let cy : ℝ := (pixel.1 : ℝ) * scale.1 - (offset.2.2 + offset.2.1)
  ⟨cx, cy⟩

/-- Embedding of `make_smooth` (src/lib.rs lines 41-45): the smoothed shading
value on escape at iteration `i`; `LN_2` is `Real.log 2`. -/
noncomputable def make_smooth (c : ℂ) (i : ℕ) : ℝ :=
  (i : ℝ) + 2 - Real.log (Real.log (c.re ^ 2 + c.im ^ 2)) / Real.log 2

/-- Embedding of the loop of `escape_time` (src/lib.rs lines 53-62): `i` is the
current iteration index, the second argument counts the remaining iterations,
`z` is the current iterate. -/
noncomputable def escape_go (c : ℂ) (power : ℕ) : ℕ → ℕ → ℂ → Option ℝ
  | _, 0, _ => none
  | i, limit + 1, z =>
    if Complex.normSq z > 5 then some (make_smooth z i)
    else escape_go c power (i + 1) limit (z ^ power + c)

/-- Embedding of `escape_time` (src/lib.rs lines 49-65). -/
noncomputable def escape_time (pixel : ℕ × ℕ) (scale : ℝ × ℝ) (offset : ℝ × ℝ × ℝ)
    (c : ℂ) (limit : ℕ) (power : ℕ) : Option ℝ :=
  escape_go c power 0 limit (calculate_offset pixel scale offset)

/-- Embedding of `get_diverged` (src/lib.rs lines 92-96): the primary constant
together with the secondary (diverged) constant. -/
def get_diverged (c : ℂ) (diverge : ℝ) : ℂ × ℂ :=
  let altered : ℂ := ⟨c.re + diverge, c.im - diverge⟩
  (c, altered)

/-- A color gradient, abstracted by its base sampling function on the domain
[0, 255]; it returns the three RGB bytes of a sample. -/
structure Gradient where
  sample : ℝ → ℕ × ℕ × ℕ

/-- Modelled from the spec: the reflecting (mirror) extension used by the
external gradient library's `reflect_at` on the domain [0, 255] — values
outside the domain are reflected (ping-pong, period 510) back into it rather
than clamped.  The library's source is not part of this repository. -/
noncomputable def reflect510 (x : ℝ) : ℝ :=
  let m := 510 * Int.fract (x / 510)
  if m ≤ 255 then m else 510 - m

/-- Modelled from the spec: sampling a gradient at an arbitrary real position
reflects the position into [0, 255] and then samples. -/
noncomputable def reflect_at (g : Gradient) (x : ℝ) : ℕ × ℕ × ℕ :=
  g.sample (reflect510 x)

/-- The `rgb`-th byte (0, 1 or 2) of an RGB triple, as selected by the inner
write loop of `render` (src/lib.rs lines 135-137). -/
def rgbComp (rgb : ℕ) (pix : ℕ × ℕ × ℕ) : ℕ :=
  if rgb = 0 then pix.1 else if rgb = 1 then pix.2.1 else pix.2.2

/-- The per-pixel body of `render` (src/lib.rs lines 122-133): evaluates the
two Julia sets for the diverged constant pair, blends them by `factor`,
optionally inverts, and samples the gradient. -/
noncomputable def render_pixel (scale : ℝ × ℝ) (offset : ℝ × ℝ × ℝ) (complex : ℂ)
    (diverge : ℝ) (grad : Gradient) (intensity : ℝ) (inverse : Bool) (power : ℕ)
    (factor : ℝ) (point : ℕ × ℕ) : ℕ × ℕ × ℕ :=
  let diverged := get_diverged complex diverge
  let a := (escape_time point scale offset diverged.1 1024 power).getD 0
  let b := (escape_time point scale offset diverged.2 1024 power).getD 0
  let x := (a + b * factor) / (1 + factor)
  let x' := if inverse then 255 - x else x
  reflect_at grad (x' * intensity)

/-- One pixel write of `render` (src/lib.rs lines 135-137): store the three
RGB bytes of `pix` at the buffer offsets of pixel `(row, column)`;  `W` is
`bounds.0`, the image width. -/
def writeRGB (W : ℕ) (buf : ℕ → ℕ) (row column : ℕ) (pix : ℕ × ℕ × ℕ) : ℕ → ℕ :=
  fun i =>
    if i = row * (W * 3) + column * 3 then pix.1
    else if i = row * (W * 3) + column * 3 + 1 then pix.2.1
    else if i = row * (W * 3) + column * 3 + 2 then pix.2.2
    else buf i

/-- Embedding of `render` (src/lib.rs lines 100-140): the nested loops over
`column in 0..bounds.0` and `row in 0..bounds.1` become folds; the byte buffer
is a function from indices to byte values. -/
noncomputable def render (pixels : ℕ → ℕ) (bounds : ℕ × ℕ) (upper_left : ℕ × ℕ)
    (scale : ℝ × ℝ) (offset : ℝ × ℝ × ℝ) (complex : ℂ) (diverge : ℝ)
    (grad : Gradient) (intensity : ℝ) (inverse : Bool) (power : ℕ) (factor : ℝ) :
    ℕ → ℕ :=
  (List.range bounds.1).foldl
    (fun buf column =>
      (List.range bounds.2).foldl
        (fun buf' row =>
          writeRGB bounds.1 buf' row column
            (render_pixel scale offset complex diverge grad intensity inverse power
              factor (row + upper_left.2, column + upper_left.1)))
        buf)
    pixels

/-- Embedding of the band size computed by `main` (src/main.rs line 110):
the maximum number of pixel rows per thread. -/
def rows_per_band (height threads : ℕ) : ℕ :=
  height / threads + 1

/-- Embedding of `pixels.chunks_mut(rows_per_band * dimensions.0 * 3)`
(src/main.rs lines 138-152) at the level of rows: the list of bands
`(top, height)` obtained by splitting `rem` rows starting at row `top` into
chunks of `rpb` rows, the final band shorter if fewer rows remain.  The
`rpb = 0` guard mirrors the panic of `chunks_mut(0)` and is never reached
(the program always passes `height / threads + 1 ≥ 1`). -/
def chunkRows (rpb top rem : ℕ) : List (ℕ × ℕ) :=
  if rem = 0 then []
  else if rem ≤ rpb then [(top, rem)]
  else if _h : rpb = 0 then []
  else (top, rpb) :: chunkRows rpb (top + rpb) (rem - rpb)
termination_by rem
decreasing_by omega

/-- Embedding of one spawned worker (src/main.rs lines 144-169): the band
starting at row `top` with `h` rows of an image of width `W` is rendered into
the corresponding slice of the global buffer; bytes outside the band's slice
are untouched. -/
noncomputable def render_band (buf : ℕ → ℕ) (W top h : ℕ) (scale : ℝ × ℝ)
    (offset : ℝ × ℝ × ℝ) (complex : ℂ) (diverge : ℝ) (grad : Gradient)
    (intensity : ℝ) (inverse : Bool) (power : ℕ) (factor : ℝ) : ℕ → ℕ :=
  fun i =>
    if top * (W * 3) ≤ i ∧ i < (top + h) * (W * 3) then
      render (fun j => buf (top * (W * 3) + j)) (W, h) (0, top) scale offset complex
        diverge grad intensity inverse power factor (i - top * (W * 3))
    else buf i

/-- Embedding of the banded render of `main` (src/main.rs lines 137-172): the
buffer is split into row bands of `rows_per_band height threads` rows and each
band is rendered; the bands write disjoint byte ranges, so the sequential fold
is a faithful model of the parallel execution. -/
noncomputable def render_all (pixels : ℕ → ℕ) (W H threads : ℕ) (scale : ℝ × ℝ)
    (offset : ℝ × ℝ × ℝ) (complex : ℂ) (diverge : ℝ) (grad : Gradient)
    (intensity : ℝ) (inverse : Bool) (power : ℕ) (factor : ℝ) : ℕ → ℕ :=
  (chunkRows (rows_per_band H threads) 0 H).foldl
    (fun buf p =>
      render_band buf W p.1 p.2 scale offset complex diverge grad intensity inverse
        power factor)
    pixels

/-! ### Lemmas about the escape-time evaluator -/

lemma escape_go_zero (c : ℂ) (power i : ℕ) (z : ℂ) :
    escape_go c power i 0 z = none := rfl

lemma escape_go_succ (c : ℂ) (power i n : ℕ) (z : ℂ) :
    escape_go c power i (n + 1) z =
      if Complex.normSq z > 5 then some (make_smooth z i)
      else escape_go c power (i + 1) n (z ^ power + c) := rfl

lemma make_smooth_normSq (w : ℂ) (k : ℕ) :
    make_smooth w k =
      (k : ℝ) + 2 - Real.log (Real.log (Complex.normSq w)) / Real.log 2 := by
  have h : w.re ^ 2 + w.im ^ 2 = w.re * w.re + w.im * w.im := by ring
  rw [make_smooth, Complex.normSq_apply, h]

/-- Characterization of the escape loop: starting at index `i` with `n`
remaining iterations and current iterate `z`, the loop returns the smoothed
value of the first iterate whose squared modulus exceeds 5, and `none` when no
iterate among the first `n` does. -/
lemma escape_go_spec (c : ℂ) (power : ℕ) :
    ∀ (n i : ℕ) (z : ℂ),
      escape_go c power i n z =
        if h : ∃ k, k < n ∧ 5 < Complex.normSq ((fun w => w ^ power + c)^[k] z)
        then some (make_smooth ((fun w => w ^ power + c)^[Nat.find h] z)
          (i + Nat.find h))
        else none := by
  intro n
  induction n with
  | zero =>
    intro i z
    rw [escape_go_zero, dif_neg]
    rintro ⟨k, hk, -⟩
    omega
  | succ n ih =>
    intro i z
    rw [escape_go_succ]
    by_cases h0 : Complex.normSq z > 5
    · rw [if_pos h0]
      have hex : ∃ k, k < n + 1 ∧
          5 < Complex.normSq ((fun w => w ^ power + c)^[k] z) :=
        ⟨0, by omega, by simpa using h0⟩
      rw [dif_pos hex]
      have hf0 : Nat.find hex = 0 :=
        (Nat.find_eq_zero hex).mpr ⟨by omega, by simpa using h0⟩
      rw [hf0]
      simp
    · rw [if_neg h0, ih]
      by_cases hex : ∃ k, k < n + 1 ∧
          5 < Complex.normSq ((fun w => w ^ power + c)^[k] z)
      · have hex' : ∃ k, k < n ∧
            5 < Complex.normSq ((fun w => w ^ power + c)^[k] (z ^ power + c)) := by
          obtain ⟨k, hk, hPk⟩ := hex
          match k with
          | 0 =>
            exact absurd (by simpa using hPk) h0
          | k + 1 =>
            refine ⟨k, by omega, ?_⟩
            rwa [Function.iterate_succ_apply] at hPk
        rw [dif_pos hex', dif_pos hex]
        have hfind : Nat.find hex = Nat.find hex' + 1 := by
          rw [Nat.find_eq_iff]
          constructor
          · obtain ⟨hlt, hesc⟩ := Nat.find_spec hex'
            refine ⟨by omega, ?_⟩
            rwa [Function.iterate_succ_apply]
          · intro j hj
            match j with
            | 0 =>
              intro hcon
              exact h0 (by simpa using hcon.2)
            | j + 1 =>
              intro hcon
              have hmin := Nat.find_min hex' (m := j) (by omega)
              apply hmin
              refine ⟨by omega, ?_⟩
              have := hcon.2
              rwa [Function.iterate_succ_apply] at this
        rw [hfind]
        rw [Function.iterate_succ_apply]
        congr 1
        rw [make_smooth_normSq, make_smooth_normSq]
        push_cast
        ring
      · rw [dif_neg hex, dif_neg]
        rintro ⟨k, hk, hPk⟩
        apply hex
        refine ⟨k + 1, by omega, ?_⟩
        rwa [Function.iterate_succ_apply]

/-- The escape loop returns `none` when every iterate stays within the
threshold. -/
lemma escape_go_eq_none (c : ℂ) (power : ℕ) :
    ∀ (n i : ℕ) (z : ℂ),
      (∀ k, Complex.normSq ((fun w => w ^ power + c)^[k] z) ≤ 5) →
      escape_go c power i n z = none := by
  intro n
  induction n with
  | zero => intro i z _; rfl
  | succ n ih =>
    intro i z h
    rw [escape_go_succ, if_neg, ih]
    · intro k
      have := h (k + 1)
      rwa [Function.iterate_succ_apply] at this
    · have := h 0
      simp only [Function.iterate_zero_apply] at this
      exact not_lt.mpr this

/-! ### Lemmas about the gradient sampler -/

lemma reflect510_neg (x : ℝ) : reflect510 (-x) = reflect510 x := by
  simp only [reflect510, neg_div]
  have h0 : 0 ≤ Int.fract (x / 510) := Int.fract_nonneg _
  have h1 : Int.fract (x / 510) < 1 := Int.fract_lt_one _
  rcases eq_or_ne (Int.fract (x / 510)) 0 with h | h
  · rw [h, Int.fract_neg_eq_zero.mpr h]
  · rw [Int.fract_neg h]
    set t := Int.fract (x / 510)
    split_ifs <;> linarith

lemma reflect510_sub (x : ℝ) : reflect510 (510 - x) = reflect510 x := by
  have h : (510 - x) / 510 = -(x / 510) + ((1 : ℤ) : ℝ) := by
    push_cast
    field_simp
    ring
  rw [← reflect510_neg x]
  simp only [reflect510, h, Int.fract_add_int, neg_div]

lemma reflect510_bounds (x : ℝ) : 0 ≤ reflect510 x ∧ reflect510 x ≤ 255 := by
  have h0 : 0 ≤ Int.fract (x / 510) := Int.fract_nonneg _
  have h1 : Int.fract (x / 510) < 1 := Int.fract_lt_one _
  simp only [reflect510]
  split_ifs <;> constructor <;> linarith

/-- A concrete gradient, used to instantiate theorems at explicit inputs. -/
def g0 : Gradient := ⟨fun _ => (0, 0, 0)⟩

/-! ### Claim theorems about the evaluator, mapper, blender and sampler -/

/-- Claim C2: `escape_time` maps the pixel to the starting point `z0`, iterates
`z ↦ z ^ power + c`, and at the first index `i` below the limit whose iterate
satisfies `|z_i|² > 5` it returns the smoothed value
`i + 2 - ln (ln |z_i|²) / ln 2`; when no index below the limit escapes it
returns the absent value. -/
theorem escape_time_C2 (pixel : ℕ × ℕ) (scale : ℝ × ℝ) (offset : ℝ × ℝ × ℝ)
    (c : ℂ) (limit power : ℕ) :
    escape_time pixel scale offset c limit power =
      if h : ∃ i, i < limit ∧ 5 < Complex.normSq
          ((fun z => z ^ power + c)^[i] (calculate_offset pixel scale offset))
      then some ((Nat.find h : ℝ) + 2 -
        Real.log (Real.log (Complex.normSq
          ((fun z => z ^ power + c)^[Nat.find h] (calculate_offset pixel scale offset))))
          / Real.log 2)
      else none := by
  rw [escape_time, escape_go_spec]
  by_cases h : ∃ i, i < limit ∧ 5 < Complex.normSq
      ((fun z => z ^ power + c)^[i] (calculate_offset pixel scale offset))
  · rw [dif_pos h, dif_pos h, make_smooth_normSq]
    norm_num
  · rw [dif_neg h, dif_neg h]

/-- Claim C3: the coordinate mapper is the stated pure affine function of the
pixel location: the real part is `column * scale.y - (offset.z + offset.x)`,
the imaginary part is `row * scale.x - (offset.z + offset.y)`; it is
deterministic and affine in `(row, column)`. -/
theorem calculate_offset_C3 (row col : ℕ) (scale : ℝ × ℝ) (offset : ℝ × ℝ × ℝ) :
    (calculate_offset (row, col) scale offset).re
        = (col : ℝ) * scale.2 - (offset.2.2 + offset.1)
    ∧ (calculate_offset (row, col) scale offset).im
        = (row : ℝ) * scale.1 - (offset.2.2 + offset.2.1)
    ∧ calculate_offset (row, col) scale offset = calculate_offset (row, col) scale offset
    ∧ ∀ r₁ c₁ r₂ c₂ : ℕ,
        calculate_offset (r₁ + r₂, c₁ + c₂) scale offset
            + calculate_offset (0, 0) scale offset
          = calculate_offset (r₁, c₁) scale offset
            + calculate_offset (r₂, c₂) scale offset := by
  refine ⟨rfl, rfl, rfl, ?_⟩
  intro r₁ c₁ r₂ c₂
  simp only [calculate_offset, Complex.ext_iff, Complex.add_re, Complex.add_im]
  constructor <;> · push_cast; ring

/-- Claim C6: with divergence delta 0 the two evaluated constants coincide, so
for every blend factor `f ≠ -1` the blended value `(a + b * f) / (1 + f)`
equals the primary-only escape value, and the per-pixel output of the blender
is independent of `f`. -/
theorem blend_diverge_zero_C6 (scale : ℝ × ℝ) (offset : ℝ × ℝ × ℝ) (c : ℂ)
    (power : ℕ) (grad : Gradient) (intensity : ℝ) (inverse : Bool) (f : ℝ)
    (hf : f ≠ -1) (pt : ℕ × ℕ) :
    ((escape_time pt scale offset (get_diverged c 0).1 1024 power).getD 0
        + (escape_time pt scale offset (get_diverged c 0).2 1024 power).getD 0 * f)
        / (1 + f)
      = (escape_time pt scale offset c 1024 power).getD 0
    ∧ render_pixel scale offset c 0 grad intensity inverse power f pt
      = render_pixel scale offset c 0 grad intensity inverse power 0 pt := by
  have hc2 : (get_diverged c 0).2 = c := by
    simp only [get_diverged]
    apply Complex.ext <;> simp
  have hc1 : (get_diverged c 0).1 = c := rfl
  have hden : (1 : ℝ) + f ≠ 0 := by
    intro h
    exact hf (by linarith)
  have hblend : ∀ a : ℝ, (a + a * f) / (1 + f) = a := by
    intro a
    field_simp
    ring
  constructor
  · rw [hc1, hc2]
    exact hblend _
  · simp only [render_pixel, hc1, hc2]
    rw [hblend]
    norm_num

/-- Witness for C6 at the blend factor 0. -/
theorem blend_diverge_zero_C6_witness :
    ((escape_time (0, 0) (1, 1) (0, 0, 0) (get_diverged 0 0).1 1024 2).getD 0
        + (escape_time (0, 0) (1, 1) (0, 0, 0) (get_diverged 0 0).2 1024 2).getD 0 * 0)
        / (1 + 0)
      = (escape_time (0, 0) (1, 1) (0, 0, 0) 0 1024 2).getD 0
    ∧ render_pixel (1, 1) (0, 0, 0) 0 0 g0 1 false 2 0 (0, 0)
      = render_pixel (1, 1) (0, 0, 0) 0 0 g0 1 false 2 0 (0, 0) :=
  blend_diverge_zero_C6 (1, 1) (0, 0, 0) 0 2 g0 1 false 0 (by norm_num) (0, 0)

/-- Claim C8 (amended): `escape_time` inspects at most `limit` iterates — every
escape it reports happens at an index below the limit — and for the constant
`c = 0` with power 2 it returns the absent value for every pixel whose mapped
starting point lies in the closed unit disk; pixels mapping outside the filled
Julia set do escape, so the original "for every pixel" fails. -/
theorem escape_time_C8 (pixel : ℕ × ℕ) (scale : ℝ × ℝ) (offset : ℝ × ℝ × ℝ) :
    (Complex.normSq (calculate_offset pixel scale offset) ≤ 1 →
      escape_time pixel scale offset 0 1024 2 = none)
    ∧ ∀ (c : ℂ) (limit power : ℕ),
        escape_time pixel scale offset c limit power = none
        ∨ ∃ i, i < limit ∧ escape_time pixel scale offset c limit power =
            some (make_smooth
              ((fun z => z ^ power + c)^[i] (calculate_offset pixel scale offset)) i) := by
  constructor
  · intro h1
    rw [escape_time]
    apply escape_go_eq_none
    intro k
    have inv : ∀ k, Complex.normSq
        ((fun w => w ^ 2 + 0)^[k] (calculate_offset pixel scale offset)) ≤ 1 := by
      intro k
      induction k with
      | zero => simpa using h1
      | succ k ih =>
        rw [Function.iterate_succ_apply']
        show Complex.normSq
          (((fun w => w ^ 2 + 0)^[k] (calculate_offset pixel scale offset)) ^ 2 + 0) ≤ 1
        rw [add_zero, map_pow]
        exact pow_le_one₀ (Complex.normSq_nonneg _) ih
    exact le_trans (inv k) (by norm_num)
  · intro c limit power
    rw [escape_time, escape_go_spec]
    by_cases h : ∃ k, k < limit ∧ 5 < Complex.normSq
        ((fun w => w ^ power + c)^[k] (calculate_offset pixel scale offset))
    · right
      refine ⟨Nat.find h, (Nat.find_spec h).1, ?_⟩
      rw [dif_pos h]
      norm_num
    · left
      rw [dif_neg h]

/-- Witness for C8 at a pixel mapping to the origin. -/
theorem escape_time_C8_witness :
    escape_time (0, 0) (1, 1) (0, 0, 0) 0 1024 2 = none :=
  (escape_time_C8 (0, 0) (1, 1) (0, 0, 0)).1
    (by simp [calculate_offset, Complex.normSq_mk])

/-- Counterexample to C8 as stated: with `c = 0` and power 2 there is a pixel
(one mapping to the point 3 of the complex plane) for which `escape_time` does
escape instead of returning the absent value. -/
theorem escape_time_C8_cex :
    escape_time (0, 0) (1, 1) (-3, 0, 0) 0 1024 2 ≠ none := by
  have h5 : Complex.normSq (calculate_offset (0, 0) (1, 1) (-3, 0, 0)) > 5 := by
    simp [calculate_offset, Complex.normSq_mk]
    norm_num
  rw [escape_time, show (1024 : ℕ) = 1023 + 1 from rfl, escape_go_succ, if_pos h5]
  simp

/-- Claim C9: gradient sampling is defined for every real input and reflects
rather than clamps over [0, 255]: `sample x = sample (-x)`,
`sample x = sample (510 - x)`, and the reflected position always lies in
[0, 255], so no input causes an out-of-range failure. -/
theorem reflect_at_C9 (g : Gradient) (x : ℝ) :
    reflect_at g x = reflect_at g (-x)
    ∧ reflect_at g x = reflect_at g (510 - x)
    ∧ 0 ≤ reflect510 x ∧ reflect510 x ≤ 255 := by
  refine ⟨?_, ?_, reflect510_bounds x⟩
  · rw [reflect_at, reflect_at, reflect510_neg]
  · rw [reflect_at, reflect_at, reflect510_sub]

/-- Claim C10: a pixel whose mapped starting point already satisfies
`|z0|² > 5` escapes at iteration 0 with smoothed value
`2 - ln (ln |z0|²) / ln 2`, independently of the constant and of the power,
because the escape test precedes the first application of the map. -/
theorem escape_time_C10 (pixel : ℕ × ℕ) (scale : ℝ × ℝ) (offset : ℝ × ℝ × ℝ)
    (c : ℂ) (limit power : ℕ)
    (h5 : 5 < Complex.normSq (calculate_offset pixel scale offset))
    (hl : 0 < limit) :
    escape_time pixel scale offset c limit power =
      some (2 - Real.log (Real.log
        (Complex.normSq (calculate_offset pixel scale offset))) / Real.log 2) := by
  obtain ⟨n, rfl⟩ : ∃ n, limit = n + 1 := ⟨limit - 1, by omega⟩
  rw [escape_time, escape_go_succ, if_pos h5, make_smooth_normSq]
  norm_num

/-- Witness for C10: the pixel mapping to the point 3 escapes immediately, for
an arbitrary nonzero constant and power 7. -/
theorem escape_time_C10_witness :
    escape_time (0, 0) (1, 1) (-3, 0, 0) ⟨1, 1⟩ 1024 7 =
      some (2 - Real.log (Real.log
        (Complex.normSq (calculate_offset (0, 0) (1, 1) (-3, 0, 0)))) / Real.log 2) :=
  escape_time_C10 (0, 0) (1, 1) (-3, 0, 0) ⟨1, 1⟩ 1024 7
    (by simp [calculate_offset, Complex.normSq_mk]; norm_num) (by norm_num)

/-! ### Buffer index arithmetic -/

lemma band_index_lt {W hh row col g : ℕ} (hrow : row < hh) (hcol : col < W)
    (hg : g < 3) : row * (W * 3) + col * 3 + g < hh * (W * 3) := by
  have h1 : col * 3 + g < W * 3 := by omega
  calc row * (W * 3) + col * 3 + g = row * (W * 3) + (col * 3 + g) := by ring
    _ < row * (W * 3) + W * 3 := Nat.add_lt_add_left h1 _
    _ = (row + 1) * (W * 3) := by ring
    _ ≤ hh * (W * 3) := mul_le_mul_right' (by omega) _

lemma band_index_le {W row col g : ℕ} :
    row * (W * 3) ≤ row * (W * 3) + col * 3 + g :=
  le_trans (Nat.le_add_right _ _) (Nat.le_add_right _ _)

lemma band_index_inj {W r c g r' c' g' : ℕ} (hc : c < W) (hc' : c' < W)
    (hg : g < 3) (hg' : g' < 3)
    (h : r * (W * 3) + c * 3 + g = r' * (W * 3) + c' * 3 + g') :
    r = r' ∧ c = c' ∧ g = g' := by
  have hW : 0 < W * 3 := by omega
  have hu : c * 3 + g < W * 3 := by omega
  have hu' : c' * 3 + g' < W * 3 := by omega
  have key : ∀ a b : ℕ, b < W * 3 → (b + a * (W * 3)) / (W * 3) = a := by
    intro a b hb
    rw [Nat.mul_comm a (W * 3), Nat.add_mul_div_left _ _ hW, Nat.div_eq_of_lt hb,
      Nat.zero_add]
  have h2 : c * 3 + g + r * (W * 3) = c' * 3 + g' + r' * (W * 3) := by linarith
  have hr : r = r' := by
    rw [← key r (c * 3 + g) hu, ← key r' (c' * 3 + g') hu', h2]
  subst hr
  have h3 : c * 3 + g = c' * 3 + g' := by
    generalize r * (W * 3) = A at h2
    omega
  exact ⟨rfl, by omega, by omega⟩

/-! ### Lemmas about single pixel writes -/

lemma writeRGB_self (W : ℕ) (buf : ℕ → ℕ) (row col : ℕ) (pix : ℕ × ℕ × ℕ)
    (g : ℕ) (hg : g < 3) :
    writeRGB W buf row col pix (row * (W * 3) + col * 3 + g) = rgbComp g pix := by
  rcases (by omega : g = 0 ∨ g = 1 ∨ g = 2) with rfl | rfl | rfl <;>
    simp [writeRGB, rgbComp]

lemma writeRGB_ne (W : ℕ) (buf : ℕ → ℕ) (row col : ℕ) (pix : ℕ × ℕ × ℕ) (i : ℕ)
    (h0 : i ≠ row * (W * 3) + col * 3) (h1 : i ≠ row * (W * 3) + col * 3 + 1)
    (h2 : i ≠ row * (W * 3) + col * 3 + 2) :
    writeRGB W buf row col pix i = buf i := by
  simp only [writeRGB, if_neg h0, if_neg h1, if_neg h2]

lemma writeRGB_other_pixel (W : ℕ) (buf : ℕ → ℕ) (row col : ℕ) (pix : ℕ × ℕ × ℕ)
    (r c g : ℕ) (hg : g < 3) (hc : c < W) (hcol : col < W)
    (hne : row ≠ r ∨ col ≠ c) :
    writeRGB W buf row col pix (r * (W * 3) + c * 3 + g)
      = buf (r * (W * 3) + c * 3 + g) := by
  apply writeRGB_ne
  · intro h
    have h' : r * (W * 3) + c * 3 + g = row * (W * 3) + col * 3 + 0 := by
      rw [Nat.add_zero]
      exact h
    obtain ⟨hr, hcc, -⟩ := band_index_inj hc hcol hg (by omega) h'
    rcases hne with hne | hne
    · exact hne hr.symm
    · exact hne hcc.symm
  · intro h
    obtain ⟨hr, hcc, -⟩ := band_index_inj hc hcol hg (by omega) h
    rcases hne with hne | hne
    · exact hne hr.symm
    · exact hne hcc.symm
  · intro h
    obtain ⟨hr, hcc, -⟩ := band_index_inj hc hcol hg (by omega) h
    rcases hne with hne | hne
    · exact hne hr.symm
    · exact hne hcc.symm

/-! ### Lemmas about the render loops -/

section RenderLemmas

variable (scale : ℝ × ℝ) (offset : ℝ × ℝ × ℝ) (cplx : ℂ) (diverge : ℝ)
  (grad : Gradient) (intensity : ℝ) (inverse : Bool) (power : ℕ) (factor : ℝ)

lemma inner_fold_untouched (W : ℕ) (pixf : ℕ → ℕ → ℕ × ℕ × ℕ) (col : ℕ) (i : ℕ) :
    ∀ (l : List ℕ) (buf : ℕ → ℕ),
      (∀ row ∈ l, ∀ g, g < 3 → i ≠ row * (W * 3) + col * 3 + g) →
      l.foldl (fun b row => writeRGB W b row col (pixf row col)) buf i = buf i := by
  intro l
  induction l with
  | nil => intro buf _; rfl
  | cons x xs ih =>
    intro buf h
    rw [List.foldl_cons,
      ih _ (fun row hrow g hgl => h row (List.mem_cons_of_mem _ hrow) g hgl)]
    apply writeRGB_ne
    · simpa using h x (List.mem_cons_self x xs) 0 (by omega)
    · exact h x (List.mem_cons_self x xs) 1 (by omega)
    · exact h x (List.mem_cons_self x xs) 2 (by omega)

lemma inner_fold_hit (W : ℕ) (pixf : ℕ → ℕ → ℕ × ℕ × ℕ) (col : ℕ) (r g : ℕ)
    (hcol : col < W) (hg : g < 3) :
    ∀ (hh : ℕ) (buf : ℕ → ℕ), r < hh →
      (List.range hh).foldl (fun b row => writeRGB W b row col (pixf row col)) buf
          (r * (W * 3) + col * 3 + g)
        = rgbComp g (pixf r col) := by
  intro hh
  induction hh with
  | zero => intro buf hr; omega
  | succ n ih =>
    intro buf hr
    rw [List.range_succ, List.foldl_append]
    simp only [List.foldl_cons, List.foldl_nil]
    rcases Nat.lt_or_ge r n with hlt | hge
    · rw [writeRGB_other_pixel _ _ _ _ _ _ _ _ hg hcol hcol (Or.inl (by omega))]
      exact ih _ hlt
    · have hrn : r = n := by omega
      subst hrn
      exact writeRGB_self _ _ _ _ _ _ hg

lemma outer_fold_hit (W hh : ℕ) (pixf : ℕ → ℕ → ℕ × ℕ × ℕ) (r c g : ℕ)
    (hg : g < 3) (hr : r < hh) :
    ∀ (n : ℕ) (buf : ℕ → ℕ), c < n → n ≤ W →
      (List.range n).foldl
          (fun b column => (List.range hh).foldl
            (fun b' row => writeRGB W b' row column (pixf row column)) b) buf
          (r * (W * 3) + c * 3 + g)
        = rgbComp g (pixf r c) := by
  intro n
  induction n with
  | zero => intro buf hc _; omega
  | succ m ih =>
    intro buf hc hnW
    rw [List.range_succ, List.foldl_append]
    simp only [List.foldl_cons, List.foldl_nil]
    rcases Nat.lt_or_ge c m with hlt | hge
    · rw [inner_fold_untouched]
      · exact ih _ hlt (by omega)
      · intro row hrow g' hg' heq
        obtain ⟨-, hcm, -⟩ :=
          band_index_inj (by omega : c < W) (by omega : m < W) hg hg' heq
        omega
    · have hcm : c = m := by omega
      subst hcm
      exact inner_fold_hit W pixf c r g (by omega) hg hh _ hr

lemma outer_fold_untouched (W hh : ℕ) (pixf : ℕ → ℕ → ℕ × ℕ × ℕ) (i : ℕ) :
    ∀ (l : List ℕ) (buf : ℕ → ℕ),
      (∀ col ∈ l, ∀ row, row < hh → ∀ g, g < 3 → i ≠ row * (W * 3) + col * 3 + g) →
      l.foldl
          (fun b column => (List.range hh).foldl
            (fun b' row => writeRGB W b' row column (pixf row column)) b) buf i
        = buf i := by
  intro l
  induction l with
  | nil => intro buf _; rfl
  | cons x xs ih =>
    intro buf h
    rw [List.foldl_cons,
      ih _ (fun col hcol row hrow g hgl => h col (List.mem_cons_of_mem _ hcol) row hrow g hgl)]
    apply inner_fold_untouched
    intro row hrow g hgl
    exact h x (List.mem_cons_self x xs) row (List.mem_range.mp hrow) g hgl

lemma render_apply_pixel (pixels : ℕ → ℕ) (bounds upper_left : ℕ × ℕ)
    (r c g : ℕ) (hr : r < bounds.2) (hc : c < bounds.1) (hg : g < 3) :
    render pixels bounds upper_left scale offset cplx diverge grad intensity inverse
        power factor (r * (bounds.1 * 3) + c * 3 + g)
      = rgbComp g (render_pixel scale offset cplx diverge grad intensity inverse power
          factor (r + upper_left.2, c + upper_left.1)) := by
  rw [render]
  exact outer_fold_hit bounds.1 bounds.2
    (fun row column => render_pixel scale offset cplx diverge grad intensity inverse
      power factor (row + upper_left.2, column + upper_left.1))
    r c g hg hr bounds.1 pixels hc (le_refl _)

lemma render_untouched (pixels : ℕ → ℕ) (bounds upper_left : ℕ × ℕ) (i : ℕ)
    (hi : bounds.2 * (bounds.1 * 3) ≤ i) :
    render pixels bounds upper_left scale offset cplx diverge grad intensity inverse
        power factor i = pixels i := by
  rw [render]
  apply outer_fold_untouched
  intro col hcol row hrow g hg heq
  have hlt : row * (bounds.1 * 3) + col * 3 + g < bounds.2 * (bounds.1 * 3) :=
    band_index_lt hrow (List.mem_range.mp hcol) hg
  rw [heq] at hi
  exact absurd hi (Nat.not_le.mpr hlt)

lemma render_band_at_pixel (buf : ℕ → ℕ) (W top hb r c g : ℕ)
    (h1 : top ≤ r) (h2 : r < top + hb) (hc : c < W) (hg : g < 3) :
    render_band buf W top hb scale offset cplx diverge grad intensity inverse power
        factor (r * (W * 3) + c * 3 + g)
      = rgbComp g (render_pixel scale offset cplx diverge grad intensity inverse power
          factor (r, c)) := by
  have hin1 : top * (W * 3) ≤ r * (W * 3) + c * 3 + g :=
    le_trans (mul_le_mul_right' h1 _) band_index_le
  have hin2 : r * (W * 3) + c * 3 + g < (top + hb) * (W * 3) :=
    band_index_lt h2 hc hg
  rw [render_band, if_pos ⟨hin1, hin2⟩]
  have hidx : r * (W * 3) + c * 3 + g - top * (W * 3)
      = (r - top) * (W * 3) + c * 3 + g := by
    have hmul : top * (W * 3) ≤ r * (W * 3) := mul_le_mul_right' h1 _
    have hsub : (r - top) * (W * 3) = r * (W * 3) - top * (W * 3) :=
      Nat.sub_mul r top (W * 3)
    generalize r * (W * 3) = A at *
    generalize top * (W * 3) = B at *
    generalize (r - top) * (W * 3) = C at *
    omega
  rw [hidx, render_apply_pixel scale offset cplx diverge grad intensity inverse power
    factor _ (W, hb) (0, top) (r - top) c g (by omega) hc hg]
  have e1 : r - top + ((0 : ℕ), top).2 = r := by
    simp only
    omega
  have e2 : c + ((0 : ℕ), top).1 = c := by
    simp
  rw [e1, e2]

lemma render_band_untouched (buf : ℕ → ℕ) (W top hb : ℕ) (i : ℕ)
    (hi : i < top * (W * 3) ∨ (top + hb) * (W * 3) ≤ i) :
    render_band buf W top hb scale offset cplx diverge grad intensity inverse power
        factor i = buf i := by
  rw [render_band, if_neg]
  rintro ⟨ha, hb'⟩
  rcases hi with hlow | hhigh
  · exact absurd ha (Nat.not_le.mpr hlow)
  · exact absurd hb' (Nat.not_lt.mpr hhigh)

lemma fold_bands_untouched (W : ℕ) (i : ℕ) :
    ∀ (l : List (ℕ × ℕ)) (buf : ℕ → ℕ),
      (∀ p ∈ l, i < p.1 * (W * 3) ∨ (p.1 + p.2) * (W * 3) ≤ i) →
      l.foldl (fun b p => render_band b W p.1 p.2 scale offset cplx diverge grad
        intensity inverse power factor) buf i = buf i := by
  intro l
  induction l with
  | nil => intro buf _; rfl
  | cons q qs ih =>
    intro buf h
    rw [List.foldl_cons, ih _ (fun p hp => h p (List.mem_cons_of_mem _ hp))]
    exact render_band_untouched scale offset cplx diverge grad intensity inverse power
      factor _ _ _ _ _ (h q (List.mem_cons_self q qs))

lemma fold_bands_apply (W : ℕ) (r c g : ℕ) (hc : c < W) (hg : g < 3) :
    ∀ (l : List (ℕ × ℕ)) (buf : ℕ → ℕ),
      List.Pairwise (fun p q => p.1 + p.2 ≤ q.1 ∨ q.1 + q.2 ≤ p.1) l →
      ∀ p ∈ l, p.1 ≤ r → r < p.1 + p.2 →
      l.foldl (fun b p' => render_band b W p'.1 p'.2 scale offset cplx diverge grad
          intensity inverse power factor) buf (r * (W * 3) + c * 3 + g)
        = rgbComp g (render_pixel scale offset cplx diverge grad intensity inverse power
            factor (r, c)) := by
  intro l
  induction l with
  | nil =>
    intro buf _ p hp
    exact absurd hp (List.not_mem_nil p)
  | cons q qs ih =>
    intro buf hpw p hp hp1 hp2
    rw [List.foldl_cons]
    rcases List.mem_cons.mp hp with rfl | hmem
    · have hrest : ∀ p' ∈ qs,
          r * (W * 3) + c * 3 + g < p'.1 * (W * 3)
          ∨ (p'.1 + p'.2) * (W * 3) ≤ r * (W * 3) + c * 3 + g := by
        intro p' hp'
        have hd := (List.pairwise_cons.mp hpw).1 p' hp'
        rcases hd with hd | hd
        · left
          exact band_index_lt (by omega) hc hg
        · right
          exact le_trans (mul_le_mul_right' (by omega) _) band_index_le
      rw [fold_bands_untouched scale offset cplx diverge grad intensity inverse power
        factor W _ qs _ hrest]
      exact render_band_at_pixel scale offset cplx diverge grad intensity inverse power
        factor _ _ _ _ _ _ _ hp1 hp2 hc hg
    · exact ih _ (List.pairwise_cons.mp hpw).2 p hmem hp1 hp2

end RenderLemmas

/-! ### Lemmas about the band partition -/

lemma chunkRows_mem (rpb : ℕ) (hrpb : 0 < rpb) :
    ∀ rem top, ∀ p ∈ chunkRows rpb top rem,
      top ≤ p.1 ∧ p.1 + p.2 ≤ top + rem ∧ 0 < p.2 ∧ p.2 ≤ rpb := by
  intro rem
  induction rem using Nat.strong_induction_on with
  | _ rem ih =>
    intro top p hp
    rw [chunkRows] at hp
    split_ifs at hp with h1 h2 h3
    · exact absurd hp (List.not_mem_nil p)
    · rw [List.mem_singleton] at hp
      subst hp
      exact ⟨le_refl _, le_refl _, by omega, by omega⟩
    · omega
    · rcases List.mem_cons.mp hp with rfl | hmem
      · exact ⟨le_refl _, by omega, by omega, le_refl _⟩
      · have := ih (rem - rpb) (by omega) (top + rpb) p hmem
        exact ⟨by omega, by omega, this.2.2⟩

lemma chunkRows_pairwise (rpb : ℕ) (hrpb : 0 < rpb) :
    ∀ rem top, List.Pairwise (fun p q => p.1 + p.2 ≤ q.1 ∨ q.1 + q.2 ≤ p.1)
      (chunkRows rpb top rem) := by
  intro rem
  induction rem using Nat.strong_induction_on with
  | _ rem ih =>
    intro top
    rw [chunkRows]
    split_ifs with h1 h2 h3
    · exact List.Pairwise.nil
    · exact List.pairwise_singleton _ _
    · exact List.Pairwise.nil
    · rw [List.pairwise_cons]
      refine ⟨?_, ih (rem - rpb) (by omega) (top + rpb)⟩
      intro p hp
      have := chunkRows_mem rpb hrpb (rem - rpb) (top + rpb) p hp
      left
      omega

lemma chunkRows_cover (rpb : ℕ) (hrpb : 0 < rpb) :
    ∀ rem top,
      ((chunkRows rpb top rem).flatMap fun p => List.range' p.1 p.2)
        = List.range' top rem := by
  intro rem
  induction rem using Nat.strong_induction_on with
  | _ rem ih =>
    intro top
    rw [chunkRows]
    split_ifs with h1 h2 h3
    · subst h1
      rfl
    · simp
    · omega
    · rw [List.flatMap_cons, ih (rem - rpb) (by omega) (top + rpb)]
      have := List.range'_append_1 top rpb (rem - rpb)
      rw [this, show rem - rpb + rpb = rem by omega]

/-! ### Lemmas about the whole banded render -/

lemma index_decompose (W : ℕ) (hW : 0 < W) (H i : ℕ) (hi : i < H * (W * 3)) :
    ∃ r c g, r < H ∧ c < W ∧ g < 3 ∧ i = r * (W * 3) + c * 3 + g := by
  refine ⟨i / (W * 3), i % (W * 3) / 3, i % (W * 3) % 3, ?_, ?_, ?_, ?_⟩
  · rw [Nat.div_lt_iff_lt_mul (by omega)]
    exact hi
  · have hlt : i % (W * 3) < W * 3 := Nat.mod_lt _ (by omega)
    rw [Nat.div_lt_iff_lt_mul (by omega)]
    omega
  · exact Nat.mod_lt _ (by omega)
  · have e1 := Nat.div_add_mod i (W * 3)
    have e2 := Nat.div_add_mod (i % (W * 3)) 3
    rw [Nat.mul_comm] at e1 e2
    generalize i / (W * 3) * (W * 3) = P at e1 ⊢
    generalize i % (W * 3) / 3 * 3 = Q at e2 ⊢
    omega

section RenderAllLemmas

variable (scale : ℝ × ℝ) (offset : ℝ × ℝ × ℝ) (cplx : ℂ) (diverge : ℝ)
  (grad : Gradient) (intensity : ℝ) (inverse : Bool) (power : ℕ) (factor : ℝ)

lemma render_all_apply (pixels : ℕ → ℕ) (W H t : ℕ) (r c g : ℕ)
    (hr : r < H) (hc : c < W) (hg : g < 3) :
    render_all pixels W H t scale offset cplx diverge grad intensity inverse power
        factor (r * (W * 3) + c * 3 + g)
      = rgbComp g (render_pixel scale offset cplx diverge grad intensity inverse power
          factor (r, c)) := by
  have hrpb : 0 < rows_per_band H t := Nat.succ_pos _
  have hrmem : r ∈ List.range' 0 H := by
    rw [List.mem_range'_1]
    omega
  rw [← chunkRows_cover (rows_per_band H t) hrpb H 0] at hrmem
  obtain ⟨p, hpmem, hpr⟩ := List.mem_flatMap.mp hrmem
  rw [List.mem_range'_1] at hpr
  rw [render_all]
  exact fold_bands_apply scale offset cplx diverge grad intensity inverse power factor
    W r c g hc hg _ pixels (chunkRows_pairwise _ hrpb H 0) p hpmem hpr.1 hpr.2

lemma render_all_untouched (pixels : ℕ → ℕ) (W H t : ℕ) (i : ℕ)
    (hi : H * (W * 3) ≤ i) :
    render_all pixels W H t scale offset cplx diverge grad intensity inverse power
        factor i = pixels i := by
  have hrpb : 0 < rows_per_band H t := Nat.succ_pos _
  rw [render_all]
  apply fold_bands_untouched
  intro p hp
  right
  have hmem := chunkRows_mem _ hrpb H 0 p hp
  exact le_trans (mul_le_mul_right' (by omega) _) hi

end RenderAllLemmas

/-! ### Claim theorems about the renderer and the band scheduler -/

/-- Claim C1: for every pixel of its band, `render` writes, at the pixel's
three byte offsets, the RGB components obtained by deriving the secondary
constant `c' = (c.re + diverge, c.im - diverge)`, evaluating escape values `a`
for `c` and `b` for `c'` with iteration limit 1024 (each defaulting to 0 when
the point never escapes), blending `x = (a + b * factor) / (1 + factor)`,
replacing `x` by `255 - x` when the inverse flag is set, and sampling the
gradient at `x * intensity`. -/
theorem render_C1 (pixels : ℕ → ℕ) (bounds upper_left : ℕ × ℕ) (scale : ℝ × ℝ)
    (offset : ℝ × ℝ × ℝ) (cplx : ℂ) (diverge : ℝ) (grad : Gradient) (intensity : ℝ)
    (inverse : Bool) (power : ℕ) (factor : ℝ) (row column rgb : ℕ)
    (hrow : row < bounds.2) (hcol : column < bounds.1) (hrgb : rgb < 3) :
    render pixels bounds upper_left scale offset cplx diverge grad intensity inverse
        power factor (row * (bounds.1 * 3) + column * 3 + rgb)
      = rgbComp rgb
          (let point := (row + upper_left.2, column + upper_left.1)
           let c' : ℂ := ⟨cplx.re + diverge, cplx.im - diverge⟩
           let a := (escape_time point scale offset cplx 1024 power).getD 0
           let b := (escape_time point scale offset c' 1024 power).getD 0
           let x := (a + b * factor) / (1 + factor)
           let x' := if inverse then 255 - x else x
           reflect_at grad (x' * intensity)) := by
  rw [render_apply_pixel scale offset cplx diverge grad intensity inverse power factor
    pixels bounds upper_left row column rgb hrow hcol hrgb]
  rfl

/-- Witness for C1 on a 1×1 image with concrete parameters. -/
theorem render_C1_witness :
    render (fun _ => 0) (1, 1) (0, 0) (1, 1) (0, 0, 0) 0 0 g0 1 false 2 0
        (0 * (1 * 3) + 0 * 3 + 0)
      = rgbComp 0
          (let point := ((0 : ℕ) + ((0 : ℕ), (0 : ℕ)).2, (0 : ℕ) + ((0 : ℕ), (0 : ℕ)).1)
           let c' : ℂ := ⟨(0 : ℂ).re + 0, (0 : ℂ).im - 0⟩
           let a := (escape_time point (1, 1) (0, 0, 0) 0 1024 2).getD 0
           let b := (escape_time point (1, 1) (0, 0, 0) c' 1024 2).getD 0
           let x := (a + b * 0) / (1 + 0)
           let x' := if false then 255 - x else x
           reflect_at g0 (x' * 1)) :=
  render_C1 (fun _ => 0) (1, 1) (0, 0) (1, 1) (0, 0, 0) 0 0 g0 1 false 2 0 0 0 0
    (by norm_num) (by norm_num) (by norm_num)

/-- Claim C4: for every thread count from 1 to the image height, the scheduler
uses `rows_per_band = height / threads + 1` and splits the rows into
contiguous non-overlapping bands of that size (the final band shorter when
fewer rows remain): every band is nonempty with at most `rows_per_band` rows,
and the concatenation of the bands' row ranges is exactly `[0, height)` — no
gaps and no overlaps. -/
theorem band_partition_C4 (H t : ℕ) (ht1 : 1 ≤ t) (ht2 : t ≤ H) :
    rows_per_band H t = H / t + 1
    ∧ (∀ p ∈ chunkRows (rows_per_band H t) 0 H,
        0 < p.2 ∧ p.2 ≤ rows_per_band H t)
    ∧ ((chunkRows (rows_per_band H t) 0 H).flatMap fun p => List.range' p.1 p.2)
        = List.range H := by
  have hrpb : 0 < rows_per_band H t := Nat.succ_pos _
  refine ⟨rfl, ?_, ?_⟩
  · intro p hp
    have := chunkRows_mem _ hrpb H 0 p hp
    exact ⟨this.2.2.1, this.2.2.2⟩
  · rw [chunkRows_cover _ hrpb H 0, List.range_eq_range']

/-- Witness for C4: a 10-row image rendered with 3 threads. -/
theorem band_partition_C4_witness :
    rows_per_band 10 3 = 10 / 3 + 1
    ∧ (∀ p ∈ chunkRows (rows_per_band 10 3) 0 10,
        0 < p.2 ∧ p.2 ≤ rows_per_band 10 3)
    ∧ ((chunkRows (rows_per_band 10 3) 0 10).flatMap fun p => List.range' p.1 p.2)
        = List.range 10 :=
  band_partition_C4 10 3 (by norm_num) (by norm_num)

lemma get_diverged_zero (c : ℂ) : get_diverged c 0 = (c, c) := by
  rw [get_diverged]
  refine congrArg _ ?_
  apply Complex.ext <;> simp

/-- Claim C7 (amended): the blend factor -1 is neither rejected nor clamped:
for every input the blender accepts `factor = -1` and computes the blend with
denominator `1 + (-1) = 0` — a division by zero (NaN or infinity in IEEE
arithmetic; the division-by-zero convention in this real-number model). -/
theorem blend_no_guard_C7 (scale : ℝ × ℝ) (offset : ℝ × ℝ × ℝ) (cplx : ℂ)
    (diverge : ℝ) (grad : Gradient) (intensity : ℝ) (inverse : Bool) (power : ℕ)
    (pt : ℕ × ℕ) :
    (1 : ℝ) + (-1) = 0
    ∧ render_pixel scale offset cplx diverge grad intensity inverse power (-1) pt
      = (let a := (escape_time pt scale offset (get_diverged cplx diverge).1
            1024 power).getD 0
         let b := (escape_time pt scale offset (get_diverged cplx diverge).2
            1024 power).getD 0
         let x := (a + b * (-1)) / 0
         reflect_at grad ((if inverse then 255 - x else x) * intensity)) := by
  refine ⟨by norm_num, ?_⟩
  simp only [render_pixel]
  norm_num

/-- Counterexample to C7 as stated: at a concrete input the program accepts
the blend factor -1 and the pixel value is computed through the unguarded
blend whose denominator `1 + (-1)` is 0, instead of the factor being rejected
or clamped before the blend. -/
theorem blend_no_guard_C7_cex :
    (1 : ℝ) + (-1) = 0
    ∧ render_pixel (1, 1) (0, 0, 0) 0 0 g0 1 false 2 (-1) (0, 0)
      = reflect_at g0
          ((((escape_time (0, 0) (1, 1) (0, 0, 0) 0 1024 2).getD 0
            + (escape_time (0, 0) (1, 1) (0, 0, 0) 0 1024 2).getD 0 * (-1)) / 0) * 1) := by
  refine ⟨by norm_num, ?_⟩
  simp only [render_pixel, get_diverged_zero]
  norm_num

/-- Claim C5: the rendered buffer is a pointwise function of each pixel's own
global coordinates and the shared immutable parameters only, so rendering the
same image with `t` threads and with 1 thread yields byte-identical buffers,
for every positive thread count. -/
theorem render_thread_independent_C5 (pixels : ℕ → ℕ) (W H t : ℕ)
    (hW : 0 < W) (ht1 : 1 ≤ t) (scale : ℝ × ℝ)
    (offset : ℝ × ℝ × ℝ) (cplx : ℂ) (diverge : ℝ) (grad : Gradient)
    (intensity : ℝ) (inverse : Bool) (power : ℕ) (factor : ℝ) :
    (∀ r c g, r < H → c < W → g < 3 →
      render_all pixels W H t scale offset cplx diverge grad intensity inverse power
          factor (r * (W * 3) + c * 3 + g)
        = rgbComp g (render_pixel scale offset cplx diverge grad intensity inverse
            power factor (r, c)))
    ∧ render_all pixels W H t scale offset cplx diverge grad intensity inverse power
        factor
      = render_all pixels W H 1 scale offset cplx diverge grad intensity inverse power
          factor := by
  constructor
  · intro r c g hr hc hg
    exact render_all_apply scale offset cplx diverge grad intensity inverse power
      factor pixels W H t r c g hr hc hg
  · funext i
    by_cases hi : i < H * (W * 3)
    · obtain ⟨r, c, g, hr, hc, hg, rfl⟩ := index_decompose W hW H i hi
      rw [render_all_apply scale offset cplx diverge grad intensity inverse power
        factor pixels W H t r c g hr hc hg,
        render_all_apply scale offset cplx diverge grad intensity inverse power
        factor pixels W H 1 r c g hr hc hg]
    · rw [render_all_untouched scale offset cplx diverge grad intensity inverse power
        factor pixels W H t i (by omega),
        render_all_untouched scale offset cplx diverge grad intensity inverse power
        factor pixels W H 1 i (by omega)]

/-- Witness for C5: a 2×2 image with 5 threads (more threads than rows)
versus 1 thread. -/
theorem render_thread_independent_C5_witness :
    render_all (fun _ => 0) 2 2 5 (1, 1) (0, 0, 0) 0 0 g0 1 false 2 0
      = render_all (fun _ => 0) 2 2 1 (1, 1) (0, 0, 0) 0 0 g0 1 false 2 0 :=
  (render_thread_independent_C5 (fun _ => 0) 2 2 5 (by norm_num) (by norm_num)
    (1, 1) (0, 0, 0) 0 0 g0 1 false 2 0).2

end Juliafatou
